import Mathlib

/-!
# Verification of the paraproc job scheduler

A shallow embedding, in Lean 4, of the core of `paraproc.py`: the shell-like
command tokenizer (`shlex.split` as used by `cmd_for_exec` / `cmd_for_disp`),
the single-command wrapper `run`, the `PooledCaller` scheduler (its `run`,
`dispatch`, `_async_get_res` and `wait` methods, and the `_callable_wrapper`
executed inside a worker process), the verdict checker `all_successful`, and
the batching helper `idss`.

Concurrency is embedded by making the nondeterministic environment explicit:
an `Env` oracle tells, for each dispatched job, at which iteration of the
polling loop the OS first reports it terminated, with which exit code, and
(for callable jobs) which value and captured output its worker pushed onto the
results channel.  The polling loop itself is a deterministic function of the
oracle, transcribed statement by statement from `PooledCaller.wait`, including
the Python-level semantics of removing elements of `self.ps` inside a
`for p in self.ps` loop (the element following a removed one is skipped in
that pass) and the single non-blocking `get` per call of `_async_get_res`.
-/

/-! ## Characters and small helpers -/

/-- The backslash character (spelled by code point to keep the file free of
delicate escape sequences). -/
def chBackslash : Char := Char.ofNat 92

/-- The single-quote character. -/
def chSQ : Char := Char.ofNat 39

/-- The double-quote character. -/
def chDQ : Char := Char.ofNat 34

/-- Membership in `shlex.whitespace` (space, tab, carriage return, newline). -/
def shWS (c : Char) : Bool := c = ' ' || c = '\t' || c = '\r' || c = '\n'

/-- Does the list start with the given pattern?  (Model of a match of a literal
pattern anchored at the current position.) -/
def startsWithL : List Char → List Char → Bool
  | [], _ => true
  | _ :: _, [] => false
  | p :: ps, c :: cs => p = c && startsWithL ps cs

/-- Does the pattern occur as a contiguous substring of the list?  (Model of
`re.search` for a literal pattern.) -/
def hasSub (pat : List Char) : List Char → Bool
  | [] => startsWithL pat []
  | c :: cs => startsWithL pat (c :: cs) || hasSub pat cs

/-! ## The shell-like tokenizer: `shlex.split(s)` (posix mode,
`whitespace_split=True`, no comment characters, no punctuation characters).

State machine transcribed from CPython `shlex.read_token`:
`ws` is state `' '` (between tokens), `word` is state `'a'`,
`sq`/`dq` the two quote states, `escW`/`escD` the escape state together
with its saved `escapedstate` (`'a'`, resp. the double quote).  In posix mode
the escaped-quote set is the double quote only, so inside double quotes a
backslash is kept literally unless it precedes a backslash or a double quote;
outside quotes a backslash always escapes the next character; single quotes
are fully literal.  A token is emitted on whitespace or end of input when the
accumulated text is non-empty or a quote was seen (so an empty quoted string
is a token).  End of input inside a quote raises `No closing quotation`;
end of input right after a backslash raises `No escaped character`. -/

/-- The tokenizer states of `shlex.read_token`. -/
inductive ShState where
  | ws | word | sq | dq | escW | escD
deriving DecidableEq, Repr

/-- One pass of `shlex.read_token` over the whole input, accumulating the
current token and the list of emitted tokens. -/
def shlexGo : List Char → ShState → List Char → Bool → List (List Char) →
    Except String (List (List Char))
  | [], st, tok, quoted, acc =>
    match st with
    | .sq | .dq => .error "No closing quotation"
    | .escW | .escD => .error "No escaped character"
    | .ws => .ok acc
    | .word => .ok (if tok ≠ [] ∨ quoted then acc ++ [tok] else acc)
  | c :: cs, .ws, tok, quoted, acc =>
    if shWS c then shlexGo cs .ws [] false acc
    else if c = chBackslash then shlexGo cs .escW tok quoted acc
    else if c = chSQ then shlexGo cs .sq tok quoted acc
    else if c = chDQ then shlexGo cs .dq tok quoted acc
    else shlexGo cs .word (tok ++ [c]) quoted acc
  | c :: cs, .word, tok, quoted, acc =>
    if shWS c then
      shlexGo cs .ws [] false (if tok ≠ [] ∨ quoted then acc ++ [tok] else acc)
    else if c = chBackslash then shlexGo cs .escW tok quoted acc
    else if c = chSQ then shlexGo cs .sq tok quoted acc
    else if c = chDQ then shlexGo cs .dq tok quoted acc
    else shlexGo cs .word (tok ++ [c]) quoted acc
  | c :: cs, .sq, tok, quoted, acc =>
    if c = chSQ then shlexGo cs .word tok true acc
    else shlexGo cs .sq (tok ++ [c]) quoted acc
  | c :: cs, .dq, tok, quoted, acc =>
    if c = chDQ then shlexGo cs .word tok true acc
    else if c = chBackslash then shlexGo cs .escD tok quoted acc
    else shlexGo cs .dq (tok ++ [c]) quoted acc
  | c :: cs, .escW, tok, quoted, acc => shlexGo cs .word (tok ++ [c]) quoted acc
  | c :: cs, .escD, tok, quoted, acc =>
    if c = chBackslash ∨ c = chDQ then shlexGo cs .dq (tok ++ [c]) quoted acc
    else shlexGo cs .dq (tok ++ [chBackslash, c]) quoted acc

/-- `shlex.split(s)`: split by whitespace, preserving quoted substrings. -/
def shlexSplit (s : String) : Except String (List String) :=
  (shlexGo s.data .ws [] false []).map (·.map String.mk)

/-- The space-join of a list of strings, `' '.join(tokens)`. -/
def joinSpace : List String → String
  | [] => ""
  | [t] => t
  | t :: ts => t ++ " " ++ joinSpace ts

/-! ## Commands: `cmd : str, list, or callable` -/

/-- A command as passed around by paraproc: free text, a token list, or a
python callable (identified here by an opaque tag, since the scheduler only
ever passes callables through unchanged). -/
inductive Cmd where
  | str : String → Cmd
  | list : List String → Cmd
  | call : Nat → Cmd
deriving DecidableEq, Repr

/-- Is the command a python callable? -/
def Cmd.isCall : Cmd → Bool
  | .call _ => true
  | _ => false

/-- `cmd_for_exec(cmd, shell)`: split a cmd string into a list if
`shell=False`; join a cmd list into a string if `shell=True`; do nothing to a
callable.  A `ValueError` raised by `shlex.split` is an `error`. -/
def cmd_for_exec (shell : Bool) (cmd : Cmd) : Except String Cmd :=
  match cmd with
  | .call f => .ok (.call f)
  | .str s => if shell then .ok (.str s) else (shlexSplit s).map .list
  | .list ts => if shell then .ok (.str (joinSpace ts)) else .ok (.list ts)

/-- `cmd_for_disp(cmd)`: a callable displays as itself; a string is
re-tokenized and re-joined (removing insignificant whitespace); a list is
joined with spaces. -/
def cmd_for_disp (cmd : Cmd) : Except String Cmd :=
  match cmd with
  | .call f => .ok (.call f)
  | .str s => (shlexSplit s).map (fun ts => .str (joinSpace ts))
  | .list ts => .ok (.str (joinSpace ts))

/-! ## The verdict checker `PooledCaller.all_successful` -/

/-- The per-line error heuristic: the default pattern
`error|\*{2}` compiled with `re.IGNORECASE` and applied with `search`, i.e.
the line contains the word `error` case-insensitively, or contains two
consecutive asterisks. -/
def matchesErrorPattern (line : String) : Bool :=
  hasSub "error".data (line.data.map Char.toLower) ||
    hasSub (List.replicate 2 '*') line.data

/-- What `all_successful` reads from a finished job record: its index, its
return code and its captured output lines. -/
structure JobView where
  idx : Nat
  returncode : Int
  output : List String
deriving DecidableEq, Repr

/-- `all_successful(jobs)`: `not np.any(returncodes)` and no captured line
matches the error pattern (`n_errors == 0`). -/
def all_successful (jobs : List JobView) : Bool :=
  let all_zero := ! jobs.any (fun j => j.returncode ≠ 0)
  let n_errors := (jobs.map (fun j => (j.output.filter matchesErrorPattern).length)).sum
  all_zero && n_errors == 0

/-! ## The single-command wrapper `run(cmd, check=True, verbose=2)`

The behavior of the launched child process (its captured output lines, its
return code, and the wall-clock timestamps taken around it) is an explicit
parameter; `run` itself normalizes the command, builds the result record, and
converts a non-zero return code into a raised `RuntimeError` when `check` is
set.  Launch failures for a callable argument (`subprocess.Popen` refuses a
callable) are an error as well. -/

/-- The observed behavior of the child process started by `run`. -/
structure ProcBehavior where
  output : List String
  returncode : Int
  start_time : Nat
  stop_time : Nat
deriving DecidableEq, Repr

/-- The `res` dictionary returned by `run` (its `pid` entry is omitted: an OS
handle with no role in the wrapper's contract). -/
structure RunRes where
  cmd : String
  output : List String
  returncode : Int
  start_time : Nat
  stop_time : Nat
deriving DecidableEq, Repr

/-- The display string carried inside a `cmd_for_disp` result. -/
def dispStr : Cmd → String
  | .str s => s
  | .list ts => joinSpace ts
  | .call _ => ""

/-- `run(cmd, check)`: normalize with `cmd_for_exec` (shell=False), render
with `cmd_for_disp`, run the child, and raise
`RuntimeError(...)` when the return code is non-zero and `check` is set. -/
def run (proc : ProcBehavior) (check : Bool) (cmd : Cmd) : Except String RunRes :=
  match cmd_for_exec false cmd with
  | .error e => .error e
  | .ok (.call f) => .error (toString f ++ " is not a valid command")
  | .ok c =>
    match cmd_for_disp c with
    | .error e => .error e
    | .ok d =>
      let cmd_str := dispStr d
      if proc.returncode ≠ 0 ∧ check then
        .error ("Error occurs when executing the following command (returncode="
          ++ toString proc.returncode ++ "):\n" ++ cmd_str)
      else
        .ok { cmd := cmd_str, output := proc.output, returncode := proc.returncode,
              start_time := proc.start_time, stop_time := proc.stop_time }

/-! ## The callable executor `PooledCaller._callable_wrapper`

The wrapper runs inside the spawned worker process.  It substitutes the
worker-local output streams by two tee buffers, runs the callable, and on a
fault prints two diagnostic lines to the error buffer and re-raises (making
the worker's exit status non-zero).  A `finally` block always pushes
`[idx, res, output]` onto the results channel, where `res` is `None` when the
callable faulted and `output` is the normal-output buffer followed by the
error buffer, both split into lines. -/

/-- What the callable itself did inside the worker: the lines it printed to
the substituted stdout and stderr, and its outcome (a return value or the
message of the exception it raised). -/
structure CallableRun (V : Type) where
  outLines : List String
  errLines : List String
  outcome : Except String V

/-- One entry of the results channel `res_queue`: `[idx, return_value]` as
pushed by the waiter for an external command, or
`[idx, return_value, output]` as pushed by `_callable_wrapper` (the `out`
field is `some` exactly when the entry has the third component). -/
structure ResEntry (V : Type) where
  idx : Nat
  val : Option V
  out : Option (List String)
deriving DecidableEq, Repr

/-- Everything observable that `_callable_wrapper` did: the final error
buffer, the entries it pushed onto the results channel, and whether the
worker process exited normally (`exitZero = false` when the fault was
re-raised). -/
structure WrapperEffect (V : Type) where
  errBuf : List String
  pushes : List (ResEntry V)
  exitZero : Bool

/-- `_callable_wrapper(idx, cmd, ...)`, as a function of the callable's
behavior inside the worker. -/
def callable_wrapper {V : Type} (idx : Nat) (r : CallableRun V) : WrapperEffect V :=
  let res : Option V := match r.outcome with
    | .ok v => some v
    | .error _ => none
  let errBuf : List String := match r.outcome with
    | .ok _ => r.errLines
    | .error e => r.errLines ++
        [">> Error occurs in job#" ++ toString idx, "** ERROR: " ++ e]
  let output := r.outLines ++ errBuf
  { errBuf := errBuf,
    pushes := [⟨idx, res, some output⟩],
    exitZero := match r.outcome with
      | .ok _ => true
      | .error _ => false }

/-! ## The scheduler `PooledCaller`

Modelling conventions.  A job's process handle (`p.pid`) is represented by the
job's batch index, which is unique within a batch and is only used as a
dictionary key while the job runs, so the identification is faithful.  Python
aliasing between the job dictionaries held by `_pid2job` and by `_log` is
modelled by storing every job record once, in `log`, and making `pid2job` map
a pid to the record's position in `log`; every in-place update of a running
job goes through that position, so it is seen by the history list exactly as
in Python.  Timestamps are iteration numbers of the polling loop.  The
`args`/`kwargs` of a queued command, the `uuid` tag and the verbosity-gated
printing are omitted: they do not affect scheduling, bookkeeping or results.
`self.ps` is the list of pids of the running processes, in dispatch order. -/

/-- One job record (`job = {'idx': ..., 'cmd': ..., 'output': [], ...}`). -/
structure Job where
  idx : Nat
  cmd : Cmd
  output : List String
  pid : Nat
  start_t : Nat
  stop_t : Option Nat
  returncode : Option Int
deriving DecidableEq, Repr

/-- The mutable state of a `PooledCaller` instance. -/
structure PCState (V : Type) where
  pool_size : Nat
  ps : List Nat
  cmd_queue : List (Nat × Cmd)
  n_cmds : Nat
  idx2pid : List (Nat × Nat)
  pid2job : List (Nat × Nat)
  log : List Job
  res_queue : List (ResEntry V)

/-- The scheduling environment: for each dispatched job (keyed by pid), the
iteration of the polling loop at which the OS first reports it terminated,
its exit code, and — for a callable job — the return value and captured
output that its worker pushed onto the results channel.  The worker's push is
scheduled at the moment the poller observes the exit (one representative
interleaving of the concurrent push; for external commands the push really is
performed by the poller itself at exactly that point). -/
structure Env (V : Type) where
  done : Nat → Nat
  rc : Nat → Int
  retv : Nat → Option V
  cout : Nat → List String

/-- Python dictionary lookup in an association list whose keys are unique. -/
def lookupNat (k : Nat) : List (Nat × Nat) → Option Nat
  | [] => none
  | (k₁, v) :: rest => if k₁ = k then some v else lookupNat k rest

/-- Replace the element at a position by the image under `f` (in-place update
of a shared record). -/
def modifyAt {α : Type} (n : Nat) (f : α → α) : List α → List α
  | [] => []
  | x :: xs =>
    match n with
    | 0 => f x :: xs
    | m + 1 => x :: modifyAt m f xs

/-- `PooledCaller.run(cmd, ...)`: normalize the command for execution, append
it to the queue with the next index, and increment the submission counter. -/
def PCState.run {V : Type} (s : PCState V) (shell : Bool) (cmd : Cmd) :
    Except String (PCState V) :=
  (cmd_for_exec shell cmd).map fun c =>
    { s with cmd_queue := s.cmd_queue ++ [(s.n_cmds, c)], n_cmds := s.n_cmds + 1 }

/-- The loop body of `PooledCaller.dispatch`: while there is a free slot and
the queue is non-empty, pop the head of the queue, start it, append the
process to `ps`, and record the job in `_idx2pid`, `_pid2job` and `_log`. -/
def dispatchGo {V : Type} (t : Nat) : List (Nat × Cmd) → PCState V → PCState V
  | [], s => { s with cmd_queue := [] }
  | (idx, cmd) :: rest, s =>
    if s.ps.length < s.pool_size then
      dispatchGo t rest
        { s with
          ps := s.ps ++ [idx],
          idx2pid := s.idx2pid ++ [(idx, idx)],
          pid2job := s.pid2job ++ [(idx, s.log.length)],
          log := s.log ++ [{ idx := idx, cmd := cmd, output := [], pid := idx,
                             start_t := t, stop_t := none, returncode := none }] }
    else { s with cmd_queue := (idx, cmd) :: rest }

/-- `PooledCaller.dispatch()` at iteration `t`. -/
def PCState.dispatch {V : Type} (t : Nat) (s : PCState V) : PCState V :=
  dispatchGo t s.cmd_queue { s with cmd_queue := [] }

/-- The `for p in self.ps` polling pass of `wait`, iterated over a snapshot
of `ps` taken when the pass starts.  A terminated process is recorded
(stop time, return code, and - for an external command - the output drained
by its watcher), removed from `self.ps`, and its results-channel entry is
enqueued: `[idx, None]` pushed by the poller for an external command, the
worker's own `[idx, value, output]` for a callable.  Removing the current
element of the live list makes Python's iterator skip the element that
followed it, which the `rest` match below reproduces.  A pid absent from
`_pid2job` cannot arise in a reachable state; the model skips it. -/
def pollGo {V : Type} (env : Env V) (t : Nat) : List Nat → PCState V → PCState V
  | [], s => s
  | pid :: rest, s =>
    if env.done pid ≤ t then
      match lookupNat pid s.pid2job with
      | none => pollGo env t rest s
      | some pos =>
        let isCall := match s.log.get? pos with
          | some j => j.cmd.isCall
          | none => false
        let s₁ : PCState V :=
          { s with
            ps := s.ps.erase pid,
            log := modifyAt pos (fun j =>
              { j with stop_t := some t, returncode := some (env.rc pid),
                       output := if isCall then j.output else env.cout pid }) s.log,
            res_queue := s.res_queue ++
              [if isCall then ⟨pid, env.retv pid, some (env.cout pid)⟩
               else ⟨pid, none, none⟩] }
        match rest with
        | [] => s₁
        | _ :: rest₁ => pollGo env t rest₁ s₁
    else pollGo env t rest s

/-- `PooledCaller._async_get_res(res_list)`: one non-blocking `get` from the
results channel; on success append `res[:2]` to the result list, and for a
three-component entry (a callable's) store the captured output into the job
found through `_idx2pid` and `_pid2job`. -/
def async_get_res {V : Type} (s : PCState V) (ress : List (Nat × Option V)) :
    PCState V × List (Nat × Option V) :=
  match s.res_queue with
  | [] => (s, ress)
  | e :: rq =>
    let s₁ : PCState V := { s with res_queue := rq }
    let ress₁ := ress ++ [(e.idx, e.val)]
    match e.out with
    | none => (s₁, ress₁)
    | some out =>
      match lookupNat e.idx s₁.idx2pid with
      | none => (s₁, ress₁)
      | some pid =>
        match lookupNat pid s₁.pid2job with
        | none => (s₁, ress₁)
        | some pos =>
          ({ s₁ with log := modifyAt pos (fun j => { j with output := out }) s₁.log },
           ress₁)

/-- One iteration of the `while len(self.ps) > 0 or len(self.cmd_queue) > 0`
loop of `wait`: dispatch, poll every running process, sleep, and make one
non-blocking attempt to drain the results channel. -/
def waitStep {V : Type} (env : Env V) (t : Nat) (s : PCState V)
    (ress : List (Nat × Option V)) : PCState V × List (Nat × Option V) :=
  let s₁ := PCState.dispatch t s
  let s₂ := pollGo env t s₁.ps s₁
  async_get_res s₂ ress

/-- The `wait` loop, with an explicit iteration counter and enough fuel; the
loop exits as soon as both the running list and the queue are empty. -/
def waitLoop {V : Type} (env : Env V) : Nat → Nat → PCState V →
    List (Nat × Option V) → PCState V × List (Nat × Option V)
  | 0, _, s, ress => (s, ress)
  | fuel + 1, t, s, ress =>
    if s.ps.length > 0 ∨ s.cmd_queue.length > 0 then
      let p := waitStep env t s ress
      waitLoop env fuel (t + 1) p.1 p.2
    else (s, ress)

/-- Stable insertion into a result list sorted by index (Python `sorted` with
`key=lambda res: res[0]` is stable). -/
def insertRes {V : Type} (x : Nat × Option V) : List (Nat × Option V) →
    List (Nat × Option V)
  | [] => [x]
  | y :: ys => if y.1 ≤ x.1 then y :: insertRes x ys else x :: y :: ys

/-- Stable sort of the collected results by submission index. -/
def sortRess {V : Type} (l : List (Nat × Option V)) : List (Nat × Option V) :=
  l.foldl (fun acc x => insertRes x acc) []

/-- Stable insertion of a job into a list sorted by `idx`. -/
def insertJob (x : Job) : List Job → List Job
  | [] => [x]
  | y :: ys => if y.idx ≤ x.idx then y :: insertJob x ys else x :: y :: ys

/-- Stable sort of the batch's jobs by submission index. -/
def sortJobs (l : List Job) : List Job :=
  l.foldl (fun acc x => insertJob x acc) []

/-- What `PooledCaller.wait` produces: the return-value list sorted by index,
the return codes of the sorted jobs, the sorted job list, and the object
state after the batch-scoped reset (a caller gets `ress`, `codes`, and
optionally `jobs`, selected by the `return_codes` / `return_jobs` flags). -/
structure WaitResult (V : Type) where
  ress : List (Option V)
  codes : List (Option Int)
  jobs : List Job
  state : PCState V

/-- `PooledCaller.wait(pool_size=override)`: temporarily adjust `pool_size`,
run the dispatch/poll loop until running list and queue are both empty, make
one final non-blocking `get` on the results channel, sort results and jobs by
index, then reset `_n_cmds`, `_idx2pid` and `_pid2job` and restore
`pool_size`. -/
def PCState.wait {V : Type} (env : Env V) (fuel : Nat) (override : Option Nat)
    (s : PCState V) : WaitResult V :=
  let old_size := s.pool_size
  let s₀ := match override with
    | some k => { s with pool_size := k }
    | none => s
  let p := waitLoop env fuel 0 s₀ []
  let q := async_get_res p.1 p.2
  let ressSorted := (sortRess q.2).map Prod.snd
  let jobs := sortJobs ((q.1.pid2job.map (fun pr => q.1.log.get? pr.2)).filterMap id)
  let codes := jobs.map (·.returncode)
  let s₁ : PCState V := { q.1 with n_cmds := 0, idx2pid := [], pid2job := [] }
  let s₂ := match override with
    | some _ => { s₁ with pool_size := old_size }
    | none => s₁
  ⟨ressSorted, codes, jobs, s₂⟩

/-! ## The batching helper `PooledCaller.idss` -/

/-- The default batch size `int(np.ceil(total / pool_size / 10))`, computed
with exact arithmetic (the quotient of the two integers is taken in the
rationals and then rounded up). -/
def ceilBatch (pool_size total : Nat) : Nat :=
  (total + pool_size * 10 - 1) / (pool_size * 10)

/-- `range(start, stop, step)` for a positive step, by fuel (`stop - start`
bounds the number of produced elements when `step ≥ 1`). -/
def pyRangeStepAux : Nat → Nat → Nat → Nat → List Nat
  | 0, _, _, _ => []
  | fuel + 1, start, stop, step =>
    if start < stop then start :: pyRangeStepAux fuel (start + step) stop step
    else []

/-- `range(start, stop, step)`; a zero step raises
`ValueError: range() arg 3 must not be zero`. -/
def pyRange (start stop step : Nat) : Except String (List Nat) :=
  if step = 0 then .error "range() arg 3 must not be zero"
  else .ok (pyRangeStepAux (stop - start) start stop step)

/-- `idss(total, batch_size=None)`: cut `range(total)` into consecutive index
ranges `range(k, min(k + batch_size, total))` for `k` in
`range(0, total, batch_size)`, the batch size defaulting to
`ceil(total / pool_size / 10)`.  In Python the outer `range` object of the
returned generator expression is built eagerly, so a zero step raises already
at the call. -/
def idss (pool_size total : Nat) (batch_size : Option Nat) :
    Except String (List (List Nat)) :=
  let bs := match batch_size with
    | some b => b
    | none => ceilBatch pool_size total
  (pyRange 0 total bs).map
    (·.map (fun k => List.range' k (min (k + bs) total - k)))

/-! ## Theorems -/

/-- C3.  `all_successful(jobs)` returns true if and only if every job of the
given set has a zero return code and no captured line of any job matches the
error pattern (case-insensitive `error`, or two consecutive asterisks); in
particular it returns true on the empty job set. -/
theorem all_successful_iff_clean (jobs : List JobView) :
    (all_successful jobs = true ↔
      ∀ j ∈ jobs, j.returncode = 0 ∧
        ∀ line ∈ j.output, matchesErrorPattern line = false)
    ∧ all_successful [] = true := by
  constructor
  · unfold all_successful
    simp only [Bool.and_eq_true, Bool.not_eq_true', List.any_eq_false, decide_eq_false_iff_not,
      not_not, beq_iff_eq, List.sum_eq_zero_iff, List.mem_map, forall_exists_index, and_imp,
      forall_apply_eq_imp_iff₂, List.length_eq_zero, List.filter_eq_nil_iff,
      decide_eq_true_eq]
    constructor
    · rintro ⟨h₁, h₂⟩ j hj
      exact ⟨h₁ j hj, fun line hline => by simpa using h₂ j hj line hline⟩
    · intro h
      exact ⟨fun j hj => (h j hj).1,
        fun j hj line hline => by simpa using (h j hj).2 line hline⟩
  · rfl

/-- C4.  When a callable job faults, `_callable_wrapper` appends to the error
buffer a diagnostic line holding the job's index and one holding the fault's
message, re-raises so the worker exits abnormally, and on every exit path the
`finally` block pushes exactly one entry `(idx, return value — null on a
fault, captured output)` onto the results channel. -/
theorem callable_wrapper_accounting {V : Type} (idx : Nat) (r : CallableRun V) :
    (callable_wrapper idx r).pushes.length = 1
    ∧ (∀ e, r.outcome = .error e →
        (callable_wrapper idx r).pushes =
          [⟨idx, none, some (r.outLines ++ r.errLines ++
            [">> Error occurs in job#" ++ toString idx, "** ERROR: " ++ e])⟩]
        ∧ (">> Error occurs in job#" ++ toString idx) ∈ (callable_wrapper idx r).errBuf
        ∧ ("** ERROR: " ++ e) ∈ (callable_wrapper idx r).errBuf
        ∧ (callable_wrapper idx r).exitZero = false)
    ∧ (∀ v, r.outcome = .ok v →
        (callable_wrapper idx r).pushes =
          [⟨idx, some v, some (r.outLines ++ r.errLines)⟩]
        ∧ (callable_wrapper idx r).exitZero = true) := by
  refine ⟨?_, ?_, ?_⟩
  · cases h : r.outcome <;> simp [callable_wrapper, h]
  · intro e he
    simp [callable_wrapper, he, List.append_assoc]
  · intro v hv
    simp [callable_wrapper, hv]

/-- C7.  `run(cmd, check=True)` raises exactly when the command's return code
is non-zero, and the raised message ends with the failing command line; with
a zero return code, or with `check` disabled, it returns the record holding
the command string, the captured output, the return code and the two
timestamps. -/
theorem run_check_raises_iff_nonzero (cmd : Cmd) (ts : List String)
    (proc : ProcBehavior)
    (hexec : cmd_for_exec false cmd = Except.ok (Cmd.list ts)) :
    (proc.returncode ≠ 0 →
      run proc true cmd = .error
        ("Error occurs when executing the following command (returncode="
          ++ toString proc.returncode ++ "):\n" ++ joinSpace ts))
    ∧ ((∃ r, run proc true cmd = .ok r) ↔ proc.returncode = 0)
    ∧ (proc.returncode = 0 →
        run proc true cmd = .ok ⟨joinSpace ts, proc.output, proc.returncode,
          proc.start_time, proc.stop_time⟩)
    ∧ run proc false cmd = .ok ⟨joinSpace ts, proc.output, proc.returncode,
        proc.start_time, proc.stop_time⟩ := by
  refine ⟨?_, ?_, ?_, ?_⟩
  · intro h
    simp [run, hexec, cmd_for_disp, dispStr, h]
  · constructor
    · rintro ⟨r, hr⟩
      by_contra h
      simp [run, hexec, cmd_for_disp, dispStr, h] at hr
    · intro h
      exact ⟨⟨joinSpace ts, proc.output, proc.returncode, proc.start_time,
        proc.stop_time⟩, by simp [run, hexec, cmd_for_disp, dispStr, h]⟩
  · intro h
    simp [run, hexec, cmd_for_disp, dispStr, h]
  · simp [run, hexec, cmd_for_disp, dispStr]

/-- Witness for C7 at `cmd = "echo hi"`, return code 1. -/
theorem run_check_raises_iff_nonzero_witness :
    run ⟨["x"], 1, 3, 7⟩ true (Cmd.str "echo hi") = .error
      ("Error occurs when executing the following command (returncode=1):\necho hi")
    ∧ run ⟨["x"], 0, 3, 7⟩ true (Cmd.str "echo hi") =
        .ok ⟨"echo hi", ["x"], 0, 3, 7⟩ :=
  ⟨by
    have h := (run_check_raises_iff_nonzero (Cmd.str "echo hi") ["echo", "hi"]
      ⟨["x"], 1, 3, 7⟩ rfl).1 (by decide)
    exact h,
   by
    have h := (run_check_raises_iff_nonzero (Cmd.str "echo hi") ["echo", "hi"]
      ⟨["x"], 0, 3, 7⟩ rfl).2.2.1 rfl
    exact h⟩

/-- The scheduling environment of the C1 run: every process has exited by the
time of the second poll (iteration 1), with return code 0 and no output. -/
def c1Env : Env Unit :=
  { done := fun _ => 1, rc := fun _ => 0, retv := fun _ => none, cout := fun _ => [] }

/-- The C1 run: a batch of five external commands in a pool of five slots
(the queue as built by five calls of `PooledCaller.run`). -/
def c1State : PCState Unit :=
  { pool_size := 5, ps := [], n_cmds := 5, idx2pid := [], pid2job := [],
    log := [], res_queue := [],
    cmd_queue := [(0, .list ["true"]), (1, .list ["true"]), (2, .list ["true"]),
                  (3, .list ["true"]), (4, .list ["true"])] }

/-- C1.  The code drops a result entry: with five submitted external commands
(a size-5 pool) all observed terminated within the same poll iteration,
`wait()` returns a results list of only 4 entries although all 5 jobs ran and
are reported in the sorted job list, and job 3's entry is left behind in the
results channel — the final non-blocking `get` of `_async_get_res` retrieves
a single entry, not every remaining one, and the removals inside
`for p in self.ps` skip every other terminated process. -/
theorem wait_loses_a_result_entry :
    (PCState.wait c1Env 10 none c1State).ress.length = 4
    ∧ c1State.n_cmds = 5
    ∧ (PCState.wait c1Env 10 none c1State).jobs.map Job.idx = [0, 1, 2, 3, 4]
    ∧ (PCState.wait c1Env 10 none c1State).state.res_queue.map ResEntry.idx = [3] :=
  ⟨rfl, rfl, rfl, rfl⟩

/-! ### Pool-size lemmas (shared by the dispatch-bound and frame theorems) -/

/-- `dispatch` does not change `pool_size`. -/
theorem dispatchGo_pool_size {V : Type} (t : Nat) (q : List (Nat × Cmd))
    (s : PCState V) : (dispatchGo t q s).pool_size = s.pool_size := by
  induction q generalizing s with
  | nil => rfl
  | cons hd tl ih =>
    obtain ⟨idx, cmd⟩ := hd
    unfold dispatchGo
    split
    · rw [ih]
    · rfl

/-- `dispatch` keeps the running list within the pool bound. -/
theorem dispatchGo_ps_le {V : Type} (t : Nat) (q : List (Nat × Cmd))
    (s : PCState V) (h : s.ps.length ≤ s.pool_size) :
    (dispatchGo t q s).ps.length ≤ s.pool_size := by
  induction q generalizing s with
  | nil => exact h
  | cons hd tl ih =>
    obtain ⟨idx, cmd⟩ := hd
    unfold dispatchGo
    split
    · have := ih (s := { s with
        ps := s.ps ++ [idx],
        idx2pid := s.idx2pid ++ [(idx, idx)],
        pid2job := s.pid2job ++ [(idx, s.log.length)],
        log := s.log ++ [{ idx := idx, cmd := cmd, output := [], pid := idx,
                           start_t := t, stop_t := none, returncode := none }] })
      simp only [List.length_append, List.length_singleton] at this
      exact this (by omega)
    · exact h

/-- `modifyAt` preserves the length of the list. -/
theorem modifyAt_length {α : Type} (n : Nat) (f : α → α) (l : List α) :
    (modifyAt n f l).length = l.length := by
  induction l generalizing n with
  | nil => simp [modifyAt]
  | cons x xs ih =>
    cases n with
    | zero => simp [modifyAt]
    | succ m => simp [modifyAt, ih]

/-- The polling pass only removes processes from `ps`, updates `log` records
in place, and pushes results: every other field of the state, and the length
of the history list, are unchanged. -/
theorem pollGo_frame {V : Type} (env : Env V) (t : Nat) (l : List Nat)
    (s : PCState V) :
    (pollGo env t l s).pool_size = s.pool_size ∧
    (pollGo env t l s).cmd_queue = s.cmd_queue ∧
    (pollGo env t l s).n_cmds = s.n_cmds ∧
    (pollGo env t l s).idx2pid = s.idx2pid ∧
    (pollGo env t l s).pid2job = s.pid2job ∧
    (pollGo env t l s).ps.length ≤ s.ps.length ∧
    (pollGo env t l s).log.length = s.log.length := by
  induction l, s using pollGo.induct env t
  case case1 s => simp [pollGo]
  case case2 pid rest s h1 h2 ih =>
    simpa only [pollGo, h1, h2, if_pos] using ih
  case case3 pid s h1 pos h2 =>
    simp only [pollGo, h1, h2, if_pos]
    refine ⟨?_, ?_, ?_, ?_, ?_, ?_, ?_⟩ <;>
      first
        | trivial
        | exact (List.erase_sublist _ _).length_le
        | exact modifyAt_length _ _ _
  case case4 pid s h1 pos h2 isC s₁ head rest₁ ih =>
    simp only [pollGo, h1, h2, if_pos]
    exact ⟨ih.1, ih.2.1, ih.2.2.1, ih.2.2.2.1, ih.2.2.2.2.1,
      le_trans ih.2.2.2.2.2.1 ((List.erase_sublist pid s.ps).length_le),
      ih.2.2.2.2.2.2.trans (modifyAt_length pos _ s.log)⟩
  case case5 pid rest s h1 ih =>
    simpa only [pollGo, h1, if_neg] using ih

/-- One non-blocking `get` changes only `res_queue`, `log` (an in-place
record update) and the result list. -/
theorem async_get_res_frame {V : Type} (s : PCState V)
    (ress : List (Nat × Option V)) :
    (async_get_res s ress).1.pool_size = s.pool_size ∧
    (async_get_res s ress).1.cmd_queue = s.cmd_queue ∧
    (async_get_res s ress).1.n_cmds = s.n_cmds ∧
    (async_get_res s ress).1.idx2pid = s.idx2pid ∧
    (async_get_res s ress).1.pid2job = s.pid2job ∧
    (async_get_res s ress).1.ps = s.ps ∧
    (async_get_res s ress).1.log.length = s.log.length := by
  unfold async_get_res
  dsimp only
  repeat' split
  all_goals
    first
      | exact ⟨rfl, rfl, rfl, rfl, rfl, rfl, rfl⟩
      | exact ⟨rfl, rfl, rfl, rfl, rfl, rfl, modifyAt_length _ _ _⟩

/-- One loop iteration preserves `pool_size` and the bound of the running
list by the pool size. -/
theorem waitStep_pool {V : Type} (env : Env V) (t : Nat) (s : PCState V)
    (ress : List (Nat × Option V)) (h : s.ps.length ≤ s.pool_size) :
    (waitStep env t s ress).1.pool_size = s.pool_size ∧
    (waitStep env t s ress).1.ps.length ≤ s.pool_size := by
  constructor
  · unfold waitStep PCState.dispatch
    rw [(async_get_res_frame _ _).1, (pollGo_frame _ _ _ _).1, dispatchGo_pool_size]
  · unfold waitStep PCState.dispatch
    rw [(async_get_res_frame _ _).2.2.2.2.2.1]
    refine le_trans (pollGo_frame _ _ _ _).2.2.2.2.2.1 ?_
    exact dispatchGo_ps_le _ _ _ h

/-- The loop preserves `pool_size`. -/
theorem waitLoop_pool_size {V : Type} (env : Env V) (fuel t : Nat)
    (s : PCState V) (ress : List (Nat × Option V)) :
    (waitLoop env fuel t s ress).1.pool_size = s.pool_size := by
  induction fuel generalizing t s ress with
  | zero => rfl
  | succ n ih =>
    unfold waitLoop
    split
    · rw [ih]
      unfold waitStep PCState.dispatch
      rw [(async_get_res_frame _ _).1, (pollGo_frame _ _ _ _).1, dispatchGo_pool_size]
    · rfl

/-- The loop keeps the running list within the pool bound. -/
theorem waitLoop_ps_le {V : Type} (env : Env V) (fuel t : Nat) (s : PCState V)
    (ress : List (Nat × Option V)) (h : s.ps.length ≤ s.pool_size) :
    (waitLoop env fuel t s ress).1.ps.length ≤ s.pool_size := by
  induction fuel generalizing t s ress h with
  | zero => exact h
  | succ n ih =>
    unfold waitLoop
    split
    · have hstep := waitStep_pool env t s ress h
      have hin : (waitStep env t s ress).1.ps.length ≤
          (waitStep env t s ress).1.pool_size := by
        rw [hstep.1]
        exact hstep.2
      have hrec := ih (t + 1) (waitStep env t s ress).1 (waitStep env t s ress).2 hin
      rw [hstep.1] at hrec
      exact hrec
    · exact h

/-- C2.  The running set never exceeds the pool bound: `dispatch()` adds jobs
only while `len(self.ps) < self.pool_size` (so it keeps `len(ps) ≤
pool_size` whenever that held before), the polling pass only ever removes
from `ps`, and hence each loop iteration and the whole `wait` loop preserve
the bound at every point. -/
theorem running_never_exceeds_pool_size {V : Type} (env : Env V)
    (t fuel tt : Nat) (q : List (Nat × Cmd)) (l : List Nat) (s : PCState V)
    (ress : List (Nat × Option V)) (h : s.ps.length ≤ s.pool_size) :
    (dispatchGo t q s).ps.length ≤ s.pool_size
    ∧ (pollGo env t l s).ps.length ≤ s.ps.length
    ∧ (waitStep env t s ress).1.ps.length ≤ s.pool_size
    ∧ (waitLoop env fuel tt s ress).1.ps.length ≤ s.pool_size :=
  ⟨dispatchGo_ps_le t q s h, (pollGo_frame env t l s).2.2.2.2.2.1,
   (waitStep_pool env t s ress h).2, waitLoop_ps_le env fuel tt s ress h⟩

/-- Witness for C2: a batch of three commands in a pool of two slots never
has more than two running. -/
theorem running_never_exceeds_pool_size_witness :
    (waitLoop (V := Unit)
      ⟨fun _ => 0, fun _ => 0, fun _ => none, fun _ => []⟩ 8 0
      { pool_size := 2, ps := [],
        cmd_queue := [(0, .list ["a"]), (1, .list ["a"]), (2, .list ["a"])],
        n_cmds := 3, idx2pid := [], pid2job := [], log := [], res_queue := [] }
      []).1.ps.length ≤ 2 :=
  (running_never_exceeds_pool_size
    ⟨fun _ => 0, fun _ => 0, fun _ => none, fun _ => []⟩ 0 8 0 [] []
    { pool_size := 2, ps := [],
      cmd_queue := [(0, .list ["a"]), (1, .list ["a"]), (2, .list ["a"])],
      n_cmds := 3, idx2pid := [], pid2job := [], log := [], res_queue := [] }
    [] (by decide)).2.2.2

/-- C9.  `wait(pool_size=k)` restores the configured `pool_size` before
returning — the override applies only to that one batch — and the loop
itself (hence also a call without an override) never changes `pool_size`. -/
theorem wait_restores_pool_size {V : Type} (env : Env V) (fuel t : Nat)
    (override : Option Nat) (s : PCState V) (ress : List (Nat × Option V)) :
    (PCState.wait env fuel override s).state.pool_size = s.pool_size
    ∧ (waitLoop env fuel t s ress).1.pool_size = s.pool_size := by
  constructor
  · rcases override with _ | k
    · unfold PCState.wait
      dsimp only
      rw [(async_get_res_frame _ _).1, waitLoop_pool_size]
    · rfl
  · exact waitLoop_pool_size env fuel t s ress

/-! ### History-retention lemmas (the `_log` list only ever grows) -/

/-- A found binding belongs to the association list. -/
theorem lookupNat_mem {k v : Nat} :
    ∀ l : List (Nat × Nat), lookupNat k l = some v → (k, v) ∈ l := by
  intro l
  induction l with
  | nil => intro h; simp [lookupNat] at h
  | cons hd tl ih =>
    intro h
    obtain ⟨k₁, v₁⟩ := hd
    by_cases hk : k₁ = k
    · subst hk
      simp [lookupNat] at h
      subst h
      exact List.mem_cons_self _ _
    · simp [lookupNat, hk] at h
      exact List.mem_cons_of_mem _ (ih h)

/-- Updating a position beyond a prefix leaves the prefix intact. -/
theorem modifyAt_append {α : Type} (f : α → α) :
    ∀ (l₁ : List α) (n : Nat) (l₂ : List α), l₁.length ≤ n →
      modifyAt n f (l₁ ++ l₂) = l₁ ++ modifyAt (n - l₁.length) f l₂ := by
  intro l₁
  induction l₁ with
  | nil => intro n l₂ _; simp
  | cons x xs ih =>
    intro n l₂ hn
    cases n with
    | zero => simp at hn
    | succ m =>
      simp only [List.cons_append, modifyAt, List.length_cons, Nat.succ_sub_succ,
        List.append_eq]
      rw [ih m l₂ (by simpa using hn)]

/-- The invariant carried through one `wait` call: the history list extends
the batch-entry history, and every job reference held by `_pid2job` points
into the extension (never into the frozen old history). -/
def LogExtends {V : Type} (base : List Job) (s : PCState V) : Prop :=
  (∃ tl, s.log = base ++ tl) ∧ ∀ pr ∈ s.pid2job, base.length ≤ pr.2

/-- Dispatching preserves the history-retention invariant. -/
theorem dispatchGo_logExt {V : Type} (base : List Job) (t : Nat) :
    ∀ (q : List (Nat × Cmd)) (s : PCState V), LogExtends base s →
      LogExtends base (dispatchGo t q s) := by
  intro q
  induction q with
  | nil => intro s h; exact h
  | cons hd tl ih =>
    intro s h
    obtain ⟨idx, cmd⟩ := hd
    obtain ⟨⟨tl₀, hlog⟩, hpos⟩ := h
    unfold dispatchGo
    split
    · apply ih
      constructor
      · refine ⟨tl₀ ++ [⟨idx, cmd, [], idx, t, none, none⟩], ?_⟩
        simp [hlog]
      · intro pr hpr
        rcases List.mem_append.1 hpr with hin | hin
        · exact hpos pr hin
        · simp only [List.mem_singleton] at hin
          subst hin
          simp [hlog]
    · exact ⟨⟨tl₀, hlog⟩, hpos⟩

/-- An in-place update beyond the frozen prefix still extends the prefix. -/
theorem log_modify_extends {α : Type} {base l : List α} (f : α → α) (pos : Nat)
    (h : ∃ tl, l = base ++ tl) (hge : base.length ≤ pos) :
    ∃ tl, modifyAt pos f l = base ++ tl := by
  obtain ⟨tl₀, rfl⟩ := h
  exact ⟨modifyAt (pos - base.length) f tl₀, modifyAt_append f base pos tl₀ hge⟩

/-- Polling preserves the history-retention invariant. -/
theorem pollGo_logExt {V : Type} (base : List Job) (env : Env V) (t : Nat) :
    ∀ (l : List Nat) (s : PCState V), LogExtends base s →
      LogExtends base (pollGo env t l s) := by
  intro l s
  induction l, s using pollGo.induct env t
  case case1 s => exact id
  case case2 pid rest s h1 h2 ih =>
    intro h
    simpa only [pollGo, h1, h2, if_pos] using ih h
  case case3 pid s h1 pos h2 =>
    intro h
    obtain ⟨hex, hpos⟩ := h
    have hge : base.length ≤ pos := hpos _ (lookupNat_mem _ h2)
    simp only [pollGo, h1, h2, if_pos]
    exact ⟨log_modify_extends _ pos hex hge, fun pr hpr => hpos pr hpr⟩
  case case4 pid s h1 pos h2 isC s₁ head rest₁ ih =>
    intro h
    obtain ⟨hex, hpos⟩ := h
    have hge : base.length ≤ pos := hpos _ (lookupNat_mem _ h2)
    simp only [pollGo, h1, h2, if_pos]
    exact ih ⟨log_modify_extends _ pos hex hge, fun pr hpr => hpos pr hpr⟩
  case case5 pid rest s h1 ih =>
    intro h
    simpa only [pollGo, h1, if_neg] using ih h

/-- One non-blocking `get` preserves the history-retention invariant. -/
theorem async_get_res_logExt {V : Type} (base : List Job) (s : PCState V)
    (ress : List (Nat × Option V)) (h : LogExtends base s) :
    LogExtends base (async_get_res s ress).1 := by
  obtain ⟨hex, hpos⟩ := h
  unfold async_get_res
  rcases hq : s.res_queue with _ | ⟨⟨eidx, ev, eout⟩, rq⟩ <;> simp only [hq]
  · exact ⟨hex, hpos⟩
  · rcases eout with _ | out
    · exact ⟨hex, hpos⟩
    · simp only
      rcases hl1 : lookupNat eidx s.idx2pid with _ | pid <;> simp only [hl1]
      · exact ⟨hex, hpos⟩
      · rcases hl2 : lookupNat pid s.pid2job with _ | pos <;> simp only [hl2]
        · exact ⟨hex, hpos⟩
        · have hge : base.length ≤ pos := hpos _ (lookupNat_mem _ hl2)
          exact ⟨log_modify_extends _ pos hex hge, fun pr hpr => hpos pr hpr⟩

/-- One loop iteration preserves the history-retention invariant. -/
theorem waitStep_logExt {V : Type} (base : List Job) (env : Env V) (t : Nat)
    (s : PCState V) (ress : List (Nat × Option V)) (h : LogExtends base s) :
    LogExtends base (waitStep env t s ress).1 := by
  unfold waitStep PCState.dispatch
  exact async_get_res_logExt base _ _
    (pollGo_logExt base env t _ _ (dispatchGo_logExt base t _ _ h))

/-- The whole loop preserves the history-retention invariant. -/
theorem waitLoop_logExt {V : Type} (base : List Job) (env : Env V) :
    ∀ (fuel t : Nat) (s : PCState V) (ress : List (Nat × Option V)),
      LogExtends base s → LogExtends base (waitLoop env fuel t s ress).1 := by
  intro fuel
  induction fuel with
  | zero => intro t s ress h; exact h
  | succ n ih =>
    intro t s ress h
    unfold waitLoop
    split
    · exact ih (t + 1) _ _ (waitStep_logExt base env t s ress h)
    · exact h

/-- An in-place update that keeps an element's distinguishing fields keeps
every matching element present. -/
theorem modifyAt_exists {α : Type} (P : α → Prop) (f : α → α)
    (hf : ∀ x, P x → P (f x)) :
    ∀ (pos : Nat) (l : List α), (∃ x ∈ l, P x) → ∃ x ∈ modifyAt pos f l, P x := by
  intro pos l
  induction l generalizing pos with
  | nil => intro h; simpa using h
  | cons y ys ih =>
    rintro ⟨x, hx, hPx⟩
    cases pos with
    | zero =>
      rcases List.mem_cons.1 hx with rfl | hmem
      · exact ⟨f x, by simp [modifyAt], hf x hPx⟩
      · exact ⟨x, by simp [modifyAt, hmem], hPx⟩
    | succ m =>
      rcases List.mem_cons.1 hx with rfl | hmem
      · exact ⟨x, by simp [modifyAt], hPx⟩
      · obtain ⟨z, hz, hPz⟩ := ih m ⟨x, hmem, hPx⟩
        exact ⟨z, by simp [modifyAt, hz], hPz⟩

/-- The batch job submitted as `e = (idx, cmd)` has been materialized in the
history list: some logged record carries exactly that index and command. -/
def JobLogged {V : Type} (e : Nat × Cmd) (s : PCState V) : Prop :=
  ∃ j ∈ s.log, j.idx = e.1 ∧ j.cmd = e.2

/-- Each submitted command is at all times either still queued or already
materialized in the history list — the invariant that makes a drained queue
mean a fully logged batch. -/
def Tracked {V : Type} (e : Nat × Cmd) (s : PCState V) : Prop :=
  e ∈ s.cmd_queue ∨ JobLogged e s

/-- Dispatching moves a queue entry into the history list: afterwards the
entry is still queued or logged (with its exact index and command). -/
theorem dispatchGo_tracked {V : Type} (t : Nat) (e : Nat × Cmd) :
    ∀ (q : List (Nat × Cmd)) (s : PCState V),
      (e ∈ q ∨ JobLogged e s) →
      e ∈ (dispatchGo t q s).cmd_queue ∨ JobLogged e (dispatchGo t q s) := by
  intro q
  induction q with
  | nil =>
    intro s h
    rcases h with h | h
    · simp at h
    · exact Or.inr h
  | cons hd tl ih =>
    intro s h
    obtain ⟨idx, cmd⟩ := hd
    unfold dispatchGo
    split
    · apply ih
      rcases h with h | h
      · rcases List.mem_cons.1 h with rfl | hmem
        · exact Or.inr ⟨⟨idx, cmd, [], idx, t, none, none⟩, by simp, rfl, rfl⟩
        · exact Or.inl hmem
      · obtain ⟨j, hj, hprop⟩ := h
        exact Or.inr ⟨j, List.mem_append_left _ hj, hprop⟩
    · rcases h with h | h
      · exact Or.inl h
      · exact Or.inr h

/-- Polling updates logged jobs in place without touching their index or
command, so a tracked entry stays tracked. -/
theorem pollGo_tracked {V : Type} (env : Env V) (t : Nat) (e : Nat × Cmd) :
    ∀ (l : List Nat) (s : PCState V), Tracked e s → Tracked e (pollGo env t l s) := by
  intro l s
  induction l, s using pollGo.induct env t
  case case1 s => exact id
  case case2 pid rest s h1 h2 ih =>
    intro h
    simpa only [pollGo, h1, h2, if_pos] using ih h
  case case3 pid s h1 pos h2 =>
    intro h
    simp only [pollGo, h1, h2, if_pos]
    rcases h with h | h
    · exact Or.inl h
    · refine Or.inr (modifyAt_exists (fun x : Job => x.idx = e.1 ∧ x.cmd = e.2)
        _ ?_ pos s.log h)
      exact fun x hx => hx
  case case4 pid s h1 pos h2 isC s₁ head rest₁ ih =>
    intro h
    simp only [pollGo, h1, h2, if_pos]
    apply ih
    rcases h with h | h
    · exact Or.inl h
    · refine Or.inr (modifyAt_exists (fun x : Job => x.idx = e.1 ∧ x.cmd = e.2)
        _ ?_ pos s.log h)
      exact fun x hx => hx
  case case5 pid rest s h1 ih =>
    intro h
    simpa only [pollGo, h1, if_neg] using ih h

/-- A non-blocking `get` keeps a tracked entry tracked (it only overwrites a
logged job's captured output). -/
theorem async_get_res_tracked {V : Type} (e : Nat × Cmd) (s : PCState V)
    (ress : List (Nat × Option V)) (h : Tracked e s) :
    Tracked e (async_get_res s ress).1 := by
  unfold async_get_res
  rcases hq : s.res_queue with _ | ⟨⟨eidx, ev, eout⟩, rq⟩ <;> simp only [hq]
  · exact h
  · rcases eout with _ | out
    · rcases h with h | h
      · exact Or.inl h
      · exact Or.inr h
    · simp only
      rcases hl1 : lookupNat eidx s.idx2pid with _ | pid <;> simp only [hl1]
      · rcases h with h | h
        · exact Or.inl h
        · exact Or.inr h
      · rcases hl2 : lookupNat pid s.pid2job with _ | pos <;> simp only [hl2]
        · rcases h with h | h
          · exact Or.inl h
          · exact Or.inr h
        · rcases h with h | h
          · exact Or.inl h
          · refine Or.inr (modifyAt_exists (fun x : Job => x.idx = e.1 ∧ x.cmd = e.2)
              _ ?_ pos s.log h)
            exact fun x hx => hx

/-- One loop iteration keeps a tracked entry tracked. -/
theorem waitStep_tracked {V : Type} (env : Env V) (t : Nat) (e : Nat × Cmd)
    (s : PCState V) (ress : List (Nat × Option V)) (h : Tracked e s) :
    Tracked e (waitStep env t s ress).1 := by
  unfold waitStep PCState.dispatch
  refine async_get_res_tracked e _ _ (pollGo_tracked env t e _ _ ?_)
  apply dispatchGo_tracked t e s.cmd_queue
  rcases h with h | h
  · exact Or.inl h
  · exact Or.inr h

/-- The whole loop keeps a tracked entry tracked. -/
theorem waitLoop_tracked {V : Type} (env : Env V) (e : Nat × Cmd) :
    ∀ (fuel t : Nat) (s : PCState V) (ress : List (Nat × Option V)),
      Tracked e s → Tracked e (waitLoop env fuel t s ress).1 := by
  intro fuel
  induction fuel with
  | zero => intro t s ress h; exact h
  | succ n ih =>
    intro t s ress h
    unfold waitLoop
    split
    · exact ih (t + 1) _ _ (waitStep_tracked env t e s ress h)
    · exact h

/-- C5.  After a completed `wait()` the batch-scoped state is reset —
`_n_cmds` is 0, `_idx2pid` and `_pid2job` are empty — while `_log` still
contains every job from every batch: the final history extends the pre-batch
history, every previously logged job is still a member, and — whenever the
call completed, i.e. the queue was drained — every command submitted for this
batch has a logged job carrying its index and command; consequently the next
`run()` after `wait()` enqueues its command with index 0 again. -/
theorem wait_resets_batch_state {V : Type} (env : Env V) (fuel : Nat)
    (override : Option Nat) (s : PCState V) (hmap : s.pid2job = []) :
    (PCState.wait env fuel override s).state.n_cmds = 0
    ∧ (PCState.wait env fuel override s).state.idx2pid = []
    ∧ (PCState.wait env fuel override s).state.pid2job = []
    ∧ (∃ tl, (PCState.wait env fuel override s).state.log = s.log ++ tl)
    ∧ (∀ j ∈ s.log, j ∈ (PCState.wait env fuel override s).state.log)
    ∧ ((PCState.wait env fuel override s).state.cmd_queue = [] →
        ∀ e ∈ s.cmd_queue, ∃ j ∈ (PCState.wait env fuel override s).state.log,
          j.idx = e.1 ∧ j.cmd = e.2)
    ∧ (∀ (cmd c : Cmd) (shell : Bool), cmd_for_exec shell cmd = .ok c →
        PCState.run (PCState.wait env fuel override s).state shell cmd =
          .ok { (PCState.wait env fuel override s).state with
                cmd_queue :=
                  (PCState.wait env fuel override s).state.cmd_queue ++ [(0, c)],
                n_cmds := 1 }) := by
  have hreset : (PCState.wait env fuel override s).state.n_cmds = 0
      ∧ (PCState.wait env fuel override s).state.idx2pid = []
      ∧ (PCState.wait env fuel override s).state.pid2job = [] := by
    rcases override with _ | k <;> exact ⟨rfl, rfl, rfl⟩
  have hlog : ∃ tl, (PCState.wait env fuel override s).state.log = s.log ++ tl := by
    rcases override with _ | k
    · have hbase : LogExtends (V := V) s.log s := ⟨⟨[], by simp⟩, by simp [hmap]⟩
      have hloop := waitLoop_logExt (V := V) s.log env fuel 0 s [] hbase
      have hfinal := async_get_res_logExt (V := V) s.log
        (waitLoop env fuel 0 s []).1 (waitLoop env fuel 0 s []).2 hloop
      exact hfinal.1
    · have hbase : LogExtends (V := V) s.log { s with pool_size := k } :=
        ⟨⟨[], by simp⟩, by simp [hmap]⟩
      have hloop := waitLoop_logExt (V := V) s.log env fuel 0
        { s with pool_size := k } [] hbase
      have hfinal := async_get_res_logExt (V := V) s.log
        (waitLoop env fuel 0 { s with pool_size := k } []).1
        (waitLoop env fuel 0 { s with pool_size := k } []).2 hloop
      exact hfinal.1
  have hmem : ∀ j ∈ s.log, j ∈ (PCState.wait env fuel override s).state.log := by
    obtain ⟨tl, htl⟩ := hlog
    intro j hj
    rw [htl]
    exact List.mem_append_left _ hj
  have hbatch : (PCState.wait env fuel override s).state.cmd_queue = [] →
      ∀ e ∈ s.cmd_queue, ∃ j ∈ (PCState.wait env fuel override s).state.log,
        j.idx = e.1 ∧ j.cmd = e.2 := by
    intro hqe e he
    rcases override with _ | k
    · have htr : Tracked e (async_get_res (waitLoop env fuel 0 s []).1
          (waitLoop env fuel 0 s []).2).1 :=
        async_get_res_tracked e _ _ (waitLoop_tracked env e fuel 0 s [] (Or.inl he))
      rcases htr with htr | htr
      · have h0 : (async_get_res (waitLoop env fuel 0 s []).1
            (waitLoop env fuel 0 s []).2).1.cmd_queue = [] := hqe
        rw [h0] at htr
        simp at htr
      · exact htr
    · have htr : Tracked e (async_get_res
          (waitLoop env fuel 0 { s with pool_size := k } []).1
          (waitLoop env fuel 0 { s with pool_size := k } []).2).1 :=
        async_get_res_tracked e _ _
          (waitLoop_tracked env e fuel 0 { s with pool_size := k } [] (Or.inl he))
      rcases htr with htr | htr
      · have h0 : (async_get_res
            (waitLoop env fuel 0 { s with pool_size := k } []).1
            (waitLoop env fuel 0 { s with pool_size := k } []).2).1.cmd_queue = [] := hqe
        rw [h0] at htr
        simp at htr
      · exact htr
  refine ⟨hreset.1, hreset.2.1, hreset.2.2, hlog, hmem, hbatch, ?_⟩
  intro cmd c shell hexec
  simp [PCState.run, hexec, hreset.1, Except.map]

/-- Witness for C5: waiting on a one-job batch resets the counters, keeps
the pre-existing history entry, and has logged the batch's own job. -/
theorem wait_resets_batch_state_witness :
    (PCState.wait (V := Unit)
        ⟨fun _ => 0, fun _ => 0, fun _ => none, fun _ => []⟩ 4 none
        { pool_size := 1, ps := [], cmd_queue := [(0, .list ["a"])], n_cmds := 1,
          idx2pid := [], pid2job := [],
          log := [⟨9, .list ["old"], [], 9, 0, none, none⟩],
          res_queue := [] }).state.n_cmds = 0
    ∧ (∃ tl, (PCState.wait (V := Unit)
        ⟨fun _ => 0, fun _ => 0, fun _ => none, fun _ => []⟩ 4 none
        { pool_size := 1, ps := [], cmd_queue := [(0, .list ["a"])], n_cmds := 1,
          idx2pid := [], pid2job := [],
          log := [⟨9, .list ["old"], [], 9, 0, none, none⟩],
          res_queue := [] }).state.log =
        [⟨9, .list ["old"], [], 9, 0, none, none⟩] ++ tl)
    ∧ (∃ j ∈ (PCState.wait (V := Unit)
        ⟨fun _ => 0, fun _ => 0, fun _ => none, fun _ => []⟩ 4 none
        { pool_size := 1, ps := [], cmd_queue := [(0, .list ["a"])], n_cmds := 1,
          idx2pid := [], pid2job := [],
          log := [⟨9, .list ["old"], [], 9, 0, none, none⟩],
          res_queue := [] }).state.log,
        j.idx = 0 ∧ j.cmd = Cmd.list ["a"]) :=
  ⟨(wait_resets_batch_state
      ⟨fun _ => 0, fun _ => 0, fun _ => none, fun _ => []⟩ 4 none
      { pool_size := 1, ps := [], cmd_queue := [(0, .list ["a"])], n_cmds := 1,
        idx2pid := [], pid2job := [],
        log := [⟨9, .list ["old"], [], 9, 0, none, none⟩],
        res_queue := [] } rfl).1,
   (wait_resets_batch_state
      ⟨fun _ => 0, fun _ => 0, fun _ => none, fun _ => []⟩ 4 none
      { pool_size := 1, ps := [], cmd_queue := [(0, .list ["a"])], n_cmds := 1,
        idx2pid := [], pid2job := [],
        log := [⟨9, .list ["old"], [], 9, 0, none, none⟩],
        res_queue := [] } rfl).2.2.2.1,
   (wait_resets_batch_state
      ⟨fun _ => 0, fun _ => 0, fun _ => none, fun _ => []⟩ 4 none
      { pool_size := 1, ps := [], cmd_queue := [(0, .list ["a"])], n_cmds := 1,
        idx2pid := [], pid2job := [],
        log := [⟨9, .list ["old"], [], 9, 0, none, none⟩],
        res_queue := [] } rfl).2.2.2.2.2.1 rfl (0, Cmd.list ["a"]) (by simp)⟩

/-! ### Lemmas about the batching helper -/

/-- A non-empty stepped range starts below its bound. -/
theorem pyRangeStepAux_ne_nil {fuel start stop step : Nat}
    (h : pyRangeStepAux fuel start stop step ≠ []) : start < stop := by
  cases fuel with
  | zero => simp [pyRangeStepAux] at h
  | succ n =>
    unfold pyRangeStepAux at h
    by_cases hlt : start < stop
    · exact hlt
    · simp [hlt] at h

/-- The default batch size is positive for a positive total. -/
theorem ceilBatch_pos (pool_size total : Nat) (hp : 1 ≤ pool_size)
    (ht : 1 ≤ total) : 1 ≤ ceilBatch pool_size total := by
  unfold ceilBatch
  rw [Nat.one_le_div_iff (by omega)]
  omega

/-- Joining the index ranges produced over a stepped range of starts covers
the interval exactly once, in order. -/
theorem idss_join (stop bs : Nat) (hbs : 1 ≤ bs) :
    ∀ (fuel start : Nat), stop - start ≤ fuel →
      ((pyRangeStepAux fuel start stop bs).map
        (fun k => List.range' k (min (k + bs) stop - k))).join =
      List.range' start (stop - start) := by
  intro fuel
  induction fuel with
  | zero =>
    intro start h
    have : stop - start = 0 := by omega
    simp [pyRangeStepAux, this]
  | succ n ih =>
    intro start h
    by_cases hlt : start < stop
    · have htail := ih (start + bs) (by omega)
      simp only [pyRangeStepAux, hlt, if_pos, List.map_cons, List.join_cons, htail]
      by_cases hc : start + bs ≤ stop
      · rw [Nat.min_eq_left hc, Nat.add_sub_cancel_left]
        have := List.range'_append_1 start bs (stop - (start + bs))
        rw [this]
        congr 1
        omega
      · have h0 : stop - (start + bs) = 0 := by omega
        rw [Nat.min_eq_right (by omega), h0]
        simp
    · have h0 : stop - start = 0 := by omega
      simp [pyRangeStepAux, hlt, h0]

/-- Every produced range except possibly the last has exactly the batch
size. -/
theorem idss_sizes (stop bs : Nat) (hbs : 1 ≤ bs) :
    ∀ (fuel start : Nat),
      ∀ ch ∈ ((pyRangeStepAux fuel start stop bs).map
        (fun k => List.range' k (min (k + bs) stop - k))).dropLast,
        ch.length = bs := by
  intro fuel
  induction fuel with
  | zero =>
    intro start ch hch
    simp [pyRangeStepAux] at hch
  | succ n ih =>
    intro start ch hch
    by_cases hlt : start < stop
    · simp only [pyRangeStepAux, hlt, if_pos, List.map_cons] at hch
      cases hrest : pyRangeStepAux n (start + bs) stop bs with
      | nil => rw [hrest] at hch; simp at hch
      | cons y ys =>
        rw [hrest] at hch
        simp only [List.map_cons, List.dropLast_cons₂, List.mem_cons] at hch
        rcases hch with hch | hch
        · subst hch
          have hy : start + bs < stop :=
            pyRangeStepAux_ne_nil (by rw [hrest]; simp)
          rw [List.length_range', Nat.min_eq_left (by omega)]
          omega
        · have := ih (start + bs) ch
          rw [hrest] at this
          simp only [List.map_cons, List.dropLast_cons₂] at this ⊢
          exact this (by simpa using hch)
    · simp [pyRangeStepAux, hlt] at hch

/-- C8.  For every `total ≥ 1` (and a meaningful pool), `idss(total)`
produces a non-empty finite sequence of consecutive, disjoint index ranges
whose concatenation is exactly `0 .. total-1` in increasing order, each range
except possibly the last of size `ceil(total / pool_size / 10)`; the helper
is a pure function of its arguments, so recomputing it restarts the same
sequence. -/
theorem idss_covers_range (pool_size total : Nat) (hp : 1 ≤ pool_size)
    (ht : 1 ≤ total) :
    ∃ chunks, idss pool_size total none = .ok chunks
      ∧ chunks.join = List.range total
      ∧ chunks ≠ []
      ∧ ∀ ch ∈ chunks.dropLast, ch.length = ceilBatch pool_size total := by
  have hbs : 1 ≤ ceilBatch pool_size total := ceilBatch_pos pool_size total hp ht
  refine ⟨(pyRangeStepAux total 0 total (ceilBatch pool_size total)).map
    (fun k => List.range' k (min (k + ceilBatch pool_size total) total - k)),
    ?_, ?_, ?_, ?_⟩
  · unfold idss pyRange
    dsimp only
    rw [if_neg (by omega)]
    simp [Except.map]
  · rw [idss_join total (ceilBatch pool_size total) hbs total 0 (by omega)]
    rw [Nat.sub_zero, List.range_eq_range']
  · cases htot : total with
    | zero => omega
    | succ m =>
      simp only [pyRangeStepAux]
      rw [if_pos (by omega)]
      simp
  · exact idss_sizes total (ceilBatch pool_size total) hbs total 0

/-- Witness for C8 at `pool_size = 2`, `total = 5` (batch size 1). -/
theorem idss_covers_range_witness :
    ∃ chunks, idss 2 5 none = .ok chunks
      ∧ chunks.join = List.range 5
      ∧ chunks ≠ []
      ∧ ∀ ch ∈ chunks.dropLast, ch.length = ceilBatch 2 5 :=
  idss_covers_range 2 5 (by decide) (by decide)

/-- C10.  With `total = 0` the computed default batch size is 0 and `idss`
raises the zero-step `range` error, while for every `total ≥ 1` the computed
batch size is at least 1 and the helper produces its ranges without fault. -/
theorem idss_zero_total_faults (pool_size : Nat) (hp : 1 ≤ pool_size) :
    ceilBatch pool_size 0 = 0
    ∧ idss pool_size 0 none = .error "range() arg 3 must not be zero"
    ∧ ∀ total, 1 ≤ total → 1 ≤ ceilBatch pool_size total ∧
        ∃ chunks, idss pool_size total none = .ok chunks := by
  have h0 : ceilBatch pool_size 0 = 0 := by
    unfold ceilBatch
    exact Nat.div_eq_of_lt (by omega)
  refine ⟨h0, ?_, ?_⟩
  · unfold idss pyRange
    dsimp only
    rw [h0]
    rfl
  · intro total ht
    have hbs : 1 ≤ ceilBatch pool_size total := ceilBatch_pos pool_size total hp ht
    refine ⟨hbs, ⟨(pyRangeStepAux total 0 total (ceilBatch pool_size total)).map
      (fun k => List.range' k (min (k + ceilBatch pool_size total) total - k)), ?_⟩⟩
    unfold idss pyRange
    dsimp only
    rw [if_neg (by omega)]
    simp [Except.map]

/-- Witness for C10 at `pool_size = 3`. -/
theorem idss_zero_total_faults_witness :
    ceilBatch 3 0 = 0
    ∧ idss 3 0 none = .error "range() arg 3 must not be zero"
    ∧ ∀ total, 1 ≤ total → 1 ≤ ceilBatch 3 total ∧
        ∃ chunks, idss 3 total none = .ok chunks :=
  idss_zero_total_faults 3 (by decide)

/-! ### The display round trip (C6) -/

/-- A character that the tokenizer treats as plain word material: not
whitespace, not the escape character, not a quote. -/
def SafeChar (c : Char) : Prop :=
  shWS c = false ∧ c ≠ chBackslash ∧ c ≠ chSQ ∧ c ≠ chDQ

instance (c : Char) : Decidable (SafeChar c) :=
  inferInstanceAs (Decidable (_ ∧ _ ∧ _ ∧ _))

/-- The character-level form of `joinSpace`. -/
def charJoin : List (List Char) → List Char
  | [] => []
  | [t] => t
  | t :: ts => t ++ ' ' :: charJoin ts

/-- `joinSpace` at the character level. -/
theorem joinSpace_data : ∀ ts : List String,
    (joinSpace ts).data = charJoin (ts.map String.data)
  | [] => rfl
  | [t] => rfl
  | t :: u :: us => by
    show (t ++ " " ++ joinSpace (u :: us)).data =
      charJoin ((t :: u :: us).map String.data)
    rw [String.data_append, String.data_append, joinSpace_data (u :: us)]
    have hsp : (" " : String).data = [' '] := rfl
    simp [charJoin, hsp]

/-- In the word state, a run of safe characters is appended to the current
token verbatim. -/
theorem shlexGo_word_safe :
    ∀ (w rest tok : List Char) (q : Bool) (acc : List (List Char)),
      (∀ c ∈ w, SafeChar c) →
      shlexGo (w ++ rest) .word tok q acc = shlexGo rest .word (tok ++ w) q acc := by
  intro w
  induction w with
  | nil => intro rest tok q acc _; simp
  | cons c w₁ ih =>
    intro rest tok q acc h
    have hc := h c (List.mem_cons_self c w₁)
    simp only [List.cons_append, shlexGo, hc.1, hc.2.1, hc.2.2.1, hc.2.2.2,
      Bool.false_eq_true, if_false, if_neg, ite_false, List.append_eq]
    rw [ih rest (tok ++ [c]) q acc (fun x hx => h x (List.mem_cons_of_mem c hx))]
    simp

/-- Splitting the space-join of non-empty all-safe tokens returns exactly
those tokens (appended to whatever was already emitted). -/
theorem shlexGo_join_safe :
    ∀ (ws : List (List Char)) (acc : List (List Char)),
      (∀ w ∈ ws, w ≠ [] ∧ ∀ c ∈ w, SafeChar c) →
      shlexGo (charJoin ws) .ws [] false acc = .ok (acc ++ ws) := by
  intro ws
  induction ws with
  | nil => intro acc _; simp [charJoin, shlexGo]
  | cons w ws₁ ih =>
    intro acc h
    obtain ⟨hne, hsafe⟩ := h w (List.mem_cons_self w ws₁)
    obtain ⟨c, w₁, rfl⟩ : ∃ c w₁, w = c :: w₁ := by
      cases w with
      | nil => exact absurd rfl hne
      | cons c w₁ => exact ⟨c, w₁, rfl⟩
    have hc := hsafe c (List.mem_cons_self c w₁)
    have hw₁ : ∀ x ∈ w₁, SafeChar x := fun x hx => hsafe x (List.mem_cons_of_mem c hx)
    cases ws₁ with
    | nil =>
      show shlexGo (c :: w₁) .ws [] false acc = .ok (acc ++ [c :: w₁])
      simp only [shlexGo, hc.1, hc.2.1, hc.2.2.1, hc.2.2.2, Bool.false_eq_true,
        if_false, if_neg, ite_false, List.append_eq]
      rw [show w₁ = w₁ ++ [] by simp] at hw₁ ⊢
      rw [shlexGo_word_safe w₁ [] ([] ++ [c]) false acc (by simpa using hw₁)]
      simp [shlexGo]
    | cons u us =>
      show shlexGo ((c :: w₁) ++ ' ' :: charJoin (u :: us)) .ws [] false acc =
        .ok (acc ++ (c :: w₁) :: u :: us)
      simp only [List.cons_append, shlexGo, hc.1, hc.2.1, hc.2.2.1, hc.2.2.2,
        Bool.false_eq_true, if_false, if_neg, ite_false, List.append_eq]
      rw [shlexGo_word_safe w₁ (' ' :: charJoin (u :: us)) ([] ++ [c]) false acc hw₁]
      have hws : shWS ' ' = true := rfl
      simp only [shlexGo, hws, if_pos, ite_true]
      rw [if_pos (by simp)]
      simp only [List.nil_append, List.singleton_append]
      rw [ih (acc ++ [c :: w₁]) (fun x hx => h x (List.mem_cons_of_mem _ hx))]
      simp

/-- Rebuilding each string from its characters is the identity. -/
theorem map_mk_data : ∀ ts : List String,
    List.map String.mk (List.map String.data ts) = ts
  | [] => rfl
  | t :: ts => by
    simp only [List.map_cons, map_mk_data ts]

/-- C6 counterexample.  The display round trip fails on a token that contains
a space: `cmd_for_disp` joins `["a b"]` into the string `a b`, and
re-splitting that display string yields `["a", "b"]`, not the original
one-token list. -/
theorem display_roundtrip_counterexample :
    cmd_for_disp (Cmd.list ["a b"]) = .ok (.str "a b")
    ∧ shlexSplit (joinSpace ["a b"]) = .ok ["a", "b"]
    ∧ shlexSplit (joinSpace ["a b"]) ≠ .ok ["a b"] := by
  refine ⟨rfl, rfl, ?_⟩
  intro h
  have h₂ : shlexSplit (joinSpace ["a b"]) = .ok ["a", "b"] := rfl
  rw [h₂] at h
  have := Except.ok.inj h
  simp at this

/-- C6 (amended).  For an already-tokenized argument list whose tokens are
non-empty and contain no whitespace, quote or escape characters, joining with
spaces (the display form) and re-splitting with the shell-like tokenizer
yields the same token sequence; and normalization for execution
(`cmd_for_exec` with `shell=False`) is deterministic and idempotent: applied
to its own output it returns that output unchanged. -/
theorem display_roundtrip_amended (ts : List String)
    (h : ∀ t ∈ ts, t.data ≠ [] ∧ ∀ c ∈ t.data, SafeChar c) :
    cmd_for_disp (Cmd.list ts) = .ok (.str (joinSpace ts))
    ∧ shlexSplit (joinSpace ts) = .ok ts
    ∧ cmd_for_exec false (Cmd.str (joinSpace ts)) = .ok (.list ts)
    ∧ (∀ c c₁ : Cmd, cmd_for_exec false c = .ok c₁ →
        cmd_for_exec false c₁ = .ok c₁) := by
  have hsplit : shlexSplit (joinSpace ts) = .ok ts := by
    unfold shlexSplit
    rw [joinSpace_data]
    rw [shlexGo_join_safe (ts.map String.data) []
      (by
        intro w hw
        obtain ⟨t, ht, rfl⟩ := List.mem_map.1 hw
        exact h t ht)]
    simp only [Except.map, List.nil_append]
    rw [map_mk_data]
  refine ⟨rfl, hsplit, ?_, ?_⟩
  · simp only [cmd_for_exec, Bool.false_eq_true, ite_false, hsplit, Except.map]
  · intro c c₁ hc
    cases c with
    | call f =>
      simp only [cmd_for_exec] at hc
      cases hc
      simp [cmd_for_exec]
    | list l =>
      simp only [cmd_for_exec, if_neg] at hc
      simp only [Bool.false_eq_true, ite_false] at hc
      cases hc
      simp [cmd_for_exec]
    | str s =>
      simp only [cmd_for_exec, Bool.false_eq_true, ite_false] at hc
      cases hs : shlexSplit s with
      | error e => rw [hs] at hc; simp [Except.map] at hc
      | ok l =>
        rw [hs] at hc
        simp only [Except.map] at hc
        cases hc
        simp [cmd_for_exec]

/-- Witness for C6 (amended) at the token list `["echo", "hi"]`. -/
theorem display_roundtrip_amended_witness :
    shlexSplit (joinSpace ["echo", "hi"]) = .ok ["echo", "hi"]
    ∧ cmd_for_exec false (Cmd.str (joinSpace ["echo", "hi"])) =
        .ok (.list ["echo", "hi"]) :=
  ⟨(display_roundtrip_amended ["echo", "hi"] (by decide)).2.1,
   (display_roundtrip_amended ["echo", "hi"] (by decide)).2.2.1⟩
